import Mathlib

/-!
Verification of `scripts/sync_mirror.py`, a reconciliation job that mirrors
open pull requests from an upstream repository (`facebook/react`) into a fork
(`greptileai/react-mirror`).

The script is shallowly embedded here.  Python strings are `List Char`
(`Str`), JSON PR records are structures, and each function of the script
becomes a Lean function of the same name.  Side-effecting shell commands
(`git`, `gh`) are embedded by an `Env` record of success oracles, and each
function additionally returns the list of adapter calls (`Eff`) it issued, so
that frame properties ("no mutation happened") can be stated.  The hosting
platform's reaction to those calls is modelled separately (`World`,
`interpEff`), from the spec, for the idempotence property.
-/

namespace SyncMirror

/-- Python strings are embedded as lists of characters. -/
abbrev Str := List Char

/-! ## Decimal digits: model of Python `str(n)` and `int(s)` -/

/-- Fuel-driven helper for `natDigits`; `fuel ≥ n` guarantees the exact
decimal expansion.  Structural recursion on the fuel keeps it
kernel-reducible. -/
def natDigitsAux : Nat → Nat → List Nat
  | 0, n => [n % 10]
  | fuel + 1, n => if n < 10 then [n] else natDigitsAux fuel (n / 10) ++ [n % 10]

/-- The decimal digits of `n`, most significant first. -/
def natDigits (n : Nat) : List Nat := natDigitsAux n n

/-- The character for a decimal digit value. -/
def digitChar (d : Nat) : Char := Char.ofNat (48 + d)

/-- Model of Python `str(n)` for a natural number: its decimal digit string. -/
def natRepr (n : Nat) : Str := (natDigits n).map digitChar

/-- Model of Python `int(s)` on a string of decimal digits. -/
def parseDigits (l : Str) : Nat :=
  l.foldl (fun acc c => acc * 10 + (c.toNat - 48)) 0

theorem natDigitsAux_congr :
    ∀ f g n, n ≤ f → n ≤ g → natDigitsAux f n = natDigitsAux g n := by
  intro f
  induction f with
  | zero =>
    intro g n hf _
    interval_cases n
    cases g <;> simp [natDigitsAux]
  | succ f ih =>
    intro g n hf hg
    cases g with
    | zero =>
      interval_cases n
      simp [natDigitsAux]
    | succ g =>
      simp only [natDigitsAux]
      by_cases h : n < 10
      · simp [h]
      · simp only [h, if_false]
        rw [ih g (n / 10) (by omega) (by omega)]

theorem natDigits_eq (n : Nat) :
    natDigits n = if n < 10 then [n] else natDigits (n / 10) ++ [n % 10] := by
  by_cases h : n < 10
  · simp only [h, if_true]
    unfold natDigits
    cases n with
    | zero => simp [natDigitsAux]
    | succ m => simp [natDigitsAux, h]
  · simp only [h, if_false]
    obtain ⟨m, rfl⟩ : ∃ m, n = m + 1 := ⟨n - 1, by omega⟩
    show natDigitsAux (m + 1) (m + 1) = _
    simp only [natDigitsAux, h, if_false]
    unfold natDigits
    rw [natDigitsAux_congr m ((m + 1) / 10) ((m + 1) / 10) (by omega) (by omega)]

theorem natDigits_lt_ten (n : Nat) : ∀ d ∈ natDigits n, d < 10 := by
  induction n using Nat.strong_induction_on with
  | _ n ih =>
    rw [natDigits_eq]
    by_cases h : n < 10
    · simp [h]
    · simp only [h, if_false]
      intro d hd
      rcases List.mem_append.mp hd with h1 | h1
      · exact ih (n / 10) (Nat.div_lt_self (by omega) (by omega)) d h1
      · simp at h1; omega

theorem natDigits_ne_nil (n : Nat) : natDigits n ≠ [] := by
  rw [natDigits_eq]
  by_cases h : n < 10 <;> simp [h]

theorem digitChar_toNat (d : Nat) (h : d < 10) : (digitChar d).toNat = 48 + d := by
  interval_cases d <;> decide

theorem digitChar_isDigit (d : Nat) (h : d < 10) : (digitChar d).isDigit = true := by
  interval_cases d <;> decide

theorem natRepr_isDigit (n : Nat) : ∀ c ∈ natRepr n, c.isDigit = true := by
  intro c hc
  rcases List.mem_map.mp hc with ⟨d, hd, rfl⟩
  exact digitChar_isDigit d (natDigits_lt_ten n d hd)

theorem natRepr_ne_nil (n : Nat) : natRepr n ≠ [] := by
  unfold natRepr
  intro h
  exact natDigits_ne_nil n (List.map_eq_nil_iff.mp h)

theorem parseDigits_append_one (l : Str) (c : Char) :
    parseDigits (l ++ [c]) = parseDigits l * 10 + (c.toNat - 48) := by
  simp [parseDigits]

theorem parseDigits_natRepr (n : Nat) : parseDigits (natRepr n) = n := by
  induction n using Nat.strong_induction_on with
  | _ n ih =>
    unfold natRepr
    rw [natDigits_eq]
    by_cases h : n < 10
    · simp [h, parseDigits, digitChar_toNat n h]
    · simp only [h, if_false, List.map_append, List.map_cons, List.map_nil]
      rw [parseDigits_append_one]
      have hrec := ih (n / 10) (Nat.div_lt_self (by omega) (by omega))
      unfold natRepr at hrec
      rw [hrec, digitChar_toNat (n % 10) (Nat.mod_lt _ (by omega))]
      omega

theorem natRepr_injective : Function.Injective natRepr := by
  intro a b h
  have := parseDigits_natRepr a
  rw [h, parseDigits_natRepr] at this
  omega

/-! ## Data model

`get_upstream_prs` returns JSON records with fields
`number,title,baseRefName,headRefName,headRefOid,body,author`;
`get_fork_prs` returns records with `number,title,headRefName,headRefOid,body`.
The snapshots are embedded as inputs to the reconciliation functions. -/

/-- One open upstream pull request, as listed by
`gh pr list --repo facebook/react --json number,title,baseRefName,headRefName,headRefOid,body,author`.
`authorLogin` embeds `pr["author"]["login"]`. -/
structure UpstreamPR where
  number : Nat
  title : Str
  baseRefName : Str
  headRefName : Str
  headRefOid : Str
  body : Str
  authorLogin : Str
  deriving DecidableEq, Repr

/-- One open fork pull request, as listed by
`gh pr list --repo greptileai/react-mirror --json number,title,headRefName,headRefOid,body`. -/
structure ForkPR where
  number : Nat
  title : Str
  headRefName : Str
  headRefOid : Str
  body : Str
  deriving DecidableEq, Repr

/-! ## Model of the back-reference regex search

The script runs `re.search` with the pattern `facebook/react#(\d+)`: the
literal text `facebook/react#` followed by a captured nonempty digit run.
`re.search` scans left to right and returns the leftmost position at which
the whole pattern matches; `\d+` is greedy, so the captured group is the
maximal digit run at that position. -/

/-- The literal part of the back-reference pattern, `facebook/react#`. -/
def reactPat : Str := "facebook/react#".data

/-- Attempt to match `facebook/react#(\d+)` at the start of `l`; returns the
captured digit run. -/
def matchDigitsAt (l : Str) : Option Str :=
  if reactPat.isPrefixOf l then
    let ds := (l.drop reactPat.length).takeWhile Char.isDigit
    if ds.isEmpty then none else some ds
  else none

/-- Leftmost match of `facebook/react#(\d+)` in `l` (the scan of `re.search`). -/
def findBackref : Str → Option Str
  | [] => none
  | c :: cs =>
    match matchDigitsAt (c :: cs) with
    | some ds => some ds
    | none => findBackref cs

/-- Model of `extract_upstream_pr_num`: recover the upstream PR number from a
mirror PR body, `int(match.group(1))` on the first match, `None` when the
pattern is absent. -/
def extract_upstream_pr_num (body : Str) : Option Nat :=
  (findBackref body).map parseDigits

/-! ## `get_branch_name` -/

/-- Model of `get_branch_name`: the fork-side branch name for upstream PR
`pr`, given the full open upstream set `all_prs`; a head-branch name shared by
more than one open upstream PR is disambiguated by suffixing `-<number>`. -/
def get_branch_name (pr : UpstreamPR) (all_prs : List UpstreamPR) : Str :=
  let head_ref := pr.headRefName
  let count := all_prs.countP (fun p => p.headRefName == head_ref)
  if count > 1 then head_ref ++ '-' :: natRepr pr.number else head_ref

/-! ## Model of the fork index dict

The script builds a dict comprehension keyed by `pr["headRefName"]`.  A
Python dict comprehension inserts in list order; a repeated key overwrites
the stored value in place (last write wins).  `dictInsert` and `dictFind`
model insertion order and lookup of a Python dict as an association list. -/

/-- Python dict assignment `d[k] = v`: replace in place if the key is present,
else append. -/
def dictInsert {α : Type} (d : List (Str × α)) (k : Str) (v : α) : List (Str × α) :=
  match d with
  | [] => [(k, v)]
  | (k', v') :: rest => if k' = k then (k, v) :: rest else (k', v') :: dictInsert rest k v

/-- Python dict lookup `d.get(k)`. -/
def dictFind {α : Type} (d : List (Str × α)) (k : Str) : Option α :=
  match d with
  | [] => none
  | (k', v) :: rest => if k' = k then some v else dictFind rest k

/-- The keys of the modelled dict, in insertion order. -/
def dictKeys {α : Type} (d : List (Str × α)) : List Str := d.map Prod.fst

/-- Model of `get_fork_prs`: index the fork's open PR list by head branch
name (dict comprehension, last write wins on duplicate keys). -/
def get_fork_prs (prs : List ForkPR) : List (Str × ForkPR) :=
  prs.foldl (fun d pr => dictInsert d pr.headRefName pr) []

/-! ## Adapter calls and their outcomes

Every `git` or `gh` invocation the script makes is embedded as an `Eff`
value recorded in an effect trace, and an `Env` of success oracles decides
whether each invocation succeeds.  `run_cmd` with `check=True` raises
`CalledProcessError` on a nonzero exit (callers catch it with `try`);
with `check=False` it never raises and returns `None` on failure.  The
embedding therefore threads the relevant oracle at each call site exactly
where the script would observe the failure. -/

/-- One adapter invocation issued by the script.  `fetchHead` carries the
commit the fetched upstream ref points at (the upstream PR snapshot's
`headRefOid`), recording the data flow `git fetch upstream pull/N/head`. -/
inductive Eff where
  | lsRemote (branch : Str)
  | fetchBaseBranch (branch : Str)
  | pushBaseBranch (branch : Str)
  | fetchHead (prNum : Nat) (branch : Str) (sha : Str) (force : Bool)
  | pushHead (branch : Str) (force : Bool)
  | createPR (head : Str) (base : Str) (title : Str) (body : Str)
  | queryState (prNum : Nat)
  | mergePR (prNum : Nat)
  | closePR (prNum : Nat)
  deriving DecidableEq, Repr

/-- Success oracles for the external commands: which invocations succeed in
this run.  `upstreamMerged n` embeds `gh pr view n --json state,merged` run
with `check=False`: `none` models a failed lookup (the script then sees
`None`), `some b` a successful lookup whose `merged` field is `b`. -/
structure Env where
  branchOnOrigin : Str → Bool
  fetchBaseOk : Str → Bool
  pushBaseOk : Str → Bool
  fetchHeadOk : Nat → Str → Bool
  pushHeadOk : Str → Bool
  createOk : Str → Bool
  mergeOk : Nat → Bool
  closeOk : Nat → Bool
  upstreamMerged : Nat → Option Bool

/-- Result of one `create_or_update_pr` call. -/
inductive Outcome where
  | created
  | updated
  | unchanged
  | failed
  deriving DecidableEq, Repr

/-- Model of `branch_exists_on_origin`: `git ls-remote --heads origin branch`
run with `check=False`. -/
def branch_exists_on_origin (env : Env) (branch : Str) : Bool × List Eff :=
  (env.branchOnOrigin branch, [.lsRemote branch])

/-- Model of `ensure_base_branch_exists`: succeed if the base branch is
already on origin; otherwise fetch it from upstream and push it, reporting
failure (the `try` catches the raise of either command) without raising. -/
def ensure_base_branch_exists (env : Env) (base_ref : Str) : Bool × List Eff :=
  if env.branchOnOrigin base_ref then (true, [.lsRemote base_ref])
  else if env.fetchBaseOk base_ref then
    if env.pushBaseOk base_ref then
      (true, [.lsRemote base_ref, .fetchBaseBranch base_ref, .pushBaseBranch base_ref])
    else
      (false, [.lsRemote base_ref, .fetchBaseBranch base_ref, .pushBaseBranch base_ref])
  else (false, [.lsRemote base_ref, .fetchBaseBranch base_ref])

/-- Model of the `pr_body` f-string template of `create_or_update_pr`, with
`UPSTREAM_REPO = "facebook/react"` substituted. -/
def mkMirrorBody (pr_num : Nat) (author : Str) (body : Str) : Str :=
  "**Mirror of [facebook/react#".data ++ natRepr pr_num
    ++ "](https://github.com/facebook/react/pull/".data ++ natRepr pr_num
    ++ ")**\n**Original author:** ".data ++ author
    ++ "\n\n---\n\n".data ++ body

/-- Model of `create_or_update_pr`: create a new mirror PR, force-update an
existing one whose head commit differs, or do nothing when the head commits
match.  Every command failure is caught and converted to `Outcome.failed`. -/
def create_or_update_pr (env : Env) (pr : UpstreamPR) (branch_name : Str)
    (fork_prs : List (Str × ForkPR)) : Outcome × List Eff :=
  match dictFind fork_prs branch_name with
  | some existing =>
    if existing.headRefOid = pr.headRefOid then (.unchanged, [])
    else if env.fetchHeadOk pr.number branch_name then
      if env.pushHeadOk branch_name then
        (.updated, [.fetchHead pr.number branch_name pr.headRefOid true,
                    .pushHead branch_name true])
      else
        (.failed, [.fetchHead pr.number branch_name pr.headRefOid true,
                   .pushHead branch_name true])
    else (.failed, [.fetchHead pr.number branch_name pr.headRefOid true])
  | none =>
    match ensure_base_branch_exists env pr.baseRefName with
    | (false, effs) => (.failed, effs)
    | (true, effs) =>
      if env.fetchHeadOk pr.number branch_name then
        if env.pushHeadOk branch_name then
          if env.createOk branch_name then
            (.created, effs ++ [.fetchHead pr.number branch_name pr.headRefOid false,
                                .pushHead branch_name false,
                                .createPR branch_name pr.baseRefName pr.title
                                  (mkMirrorBody pr.number pr.authorLogin pr.body)])
          else
            (.failed, effs ++ [.fetchHead pr.number branch_name pr.headRefOid false,
                               .pushHead branch_name false,
                               .createPR branch_name pr.baseRefName pr.title
                                 (mkMirrorBody pr.number pr.authorLogin pr.body)])
        else
          (.failed, effs ++ [.fetchHead pr.number branch_name pr.headRefOid false,
                             .pushHead branch_name false])
      else (.failed, effs ++ [.fetchHead pr.number branch_name pr.headRefOid false])

/-- Resolution of one stale fork item in `close_or_merge_stale_prs`. -/
inductive StaleOutcome where
  | merged
  | closed
  deriving DecidableEq, Repr

/-- Model of the body of the stale loop of `close_or_merge_stale_prs` for one
fork PR whose branch name is not in the upstream set.  Mirrors the script
exactly: the reference to the upstream PR number is tested with Python
truthiness (`if upstream_pr_num:`, so `0` behaves like a missing reference);
the merge and close commands are run with `check=False`, so they never raise
and the counter is incremented whether or not the command succeeded. -/
def staleStep (env : Env) (pr : ForkPR) : StaleOutcome × List Eff :=
  match extract_upstream_pr_num pr.body with
  | some n =>
    if n = 0 then (.closed, [.closePR pr.number])
    else
      match env.upstreamMerged n with
      | some true => (.merged, [.queryState n, .mergePR pr.number])
      | _ => (.closed, [.queryState n, .closePR pr.number])
  | none => (.closed, [.closePR pr.number])

/-- Model of `close_or_merge_stale_prs`: walk the fork index in insertion
order and resolve every entry whose branch name is not among the current
upstream branch names.  Returns the per-item resolutions (whose `merged` and
`closed` counts are the returned counters of the script) and the effect
trace. -/
def close_or_merge_stale_prs (env : Env) (upstream_branches : List Str)
    (fork_prs : List (Str × ForkPR)) : List StaleOutcome × List Eff :=
  match fork_prs with
  | [] => ([], [])
  | (branch_name, pr) :: rest =>
    if branch_name ∈ upstream_branches then
      close_or_merge_stale_prs env upstream_branches rest
    else
      let s := staleStep env pr
      let r := close_or_merge_stale_prs env upstream_branches rest
      (s.1 :: r.1, s.2 ++ r.2)

/-! ## The run orchestrator -/

/-- Stable insertion of `pr` into a list already sorted by ascending
`number`, keeping `pr` after strictly smaller numbers and before equal or
larger ones. -/
def insertByNumber (pr : UpstreamPR) : List UpstreamPR → List UpstreamPR
  | [] => [pr]
  | q :: qs => if pr.number ≤ q.number then pr :: q :: qs else q :: insertByNumber pr qs

/-- Model of `sorted(upstream_prs, key=lambda x: x["number"])`: a stable
ascending sort by PR number. -/
def sortByNumber : List UpstreamPR → List UpstreamPR
  | [] => []
  | pr :: prs => insertByNumber pr (sortByNumber prs)

/-- The per-upstream-item loop of `sync_prs`: reconcile each item in order
against the fixed fork snapshot, collecting outcomes and effects. -/
def runItems (env : Env) (all_prs : List UpstreamPR) (fork_prs : List (Str × ForkPR)) :
    List UpstreamPR → List Outcome × List Eff
  | [] => ([], [])
  | pr :: rest =>
    let r := create_or_update_pr env pr (get_branch_name pr all_prs) fork_prs
    let rs := runItems env all_prs fork_prs rest
    (r.1 :: rs.1, r.2 ++ rs.2)

/-- Aggregate result of one `sync_prs` run. -/
structure RunResult where
  outcomes : List Outcome
  staleOutcomes : List StaleOutcome
  effects : List Eff
  deriving Repr

/-- Model of `sync_prs`: snapshot both sides, process the upstream PRs in
ascending number order (computing each branch name against the full unsorted
snapshot, exactly as the script does), collect the set of expected branch
names, then close or merge the stale fork PRs. -/
def sync_prs (env : Env) (upstream_prs : List UpstreamPR) (fork_list : List ForkPR) :
    RunResult :=
  let fork_prs := get_fork_prs fork_list
  let sorted := sortByNumber upstream_prs
  let upstream_branches := sorted.map (fun pr => get_branch_name pr upstream_prs)
  let items := runItems env upstream_prs fork_prs sorted
  let stale := close_or_merge_stale_prs env upstream_branches fork_prs
  ⟨items.1, stale.1, items.2 ++ stale.2⟩

/-- The boolean `sync_prs` returns: `failed == 0`. -/
def syncOk (env : Env) (upstream_prs : List UpstreamPR) (fork_list : List ForkPR) : Bool :=
  (sync_prs env upstream_prs fork_list).outcomes.count .failed == 0

/-- Model of `main`: `sys.exit(0 if success else 1)`. -/
def mainExit (env : Env) (upstream_prs : List UpstreamPR) (fork_list : List ForkPR) : Nat :=
  if syncOk env upstream_prs fork_list then 0 else 1

/-! ## Platform world model

Modelled from the spec: the transport and review-platform collaborators
(spec sections 4.3 and 4.4) are outside the script's source, so their
reaction to the adapter calls is modelled here from the spec's interface
descriptions.  A `World` carries the fork's open PRs, the local clone's
branch tips, the fork remote's branch tips, and the next PR id the platform
will assign.  Per the spec, a force push makes the existing PR object pick
up the new commit automatically, and a created PR's head commit is the tip
of the pushed head branch. -/

/-- State of the hosting platform and the local clone between runs:
the fork's open PRs, local branch tips, fork-remote branch tips, and the
next fork PR id. -/
structure World where
  prs : List ForkPR
  localB : Str → Option Str
  originB : Str → Option Str
  nextNum : Nat

/-- The largest PR number in a fork snapshot (`0` when empty); fresh PR ids
assigned by the platform are strictly larger. -/
def maxNum (l : List ForkPR) : Nat := l.foldr (fun p m => max p.number m) 0

/-- Modelled from the spec: the world at the start of a run whose fork
snapshot is `fork_list`; each open fork PR's branch is on the fork remote at
that PR's head commit. -/
def initWorld (fork_list : List ForkPR) : World :=
  ⟨fork_list, fun _ => none,
   fun b => (dictFind (get_fork_prs fork_list) b).map ForkPR.headRefOid,
   maxNum fork_list + 1⟩

/-- Modelled from the spec: the effect of one successful adapter call on the
platform world; a call whose success oracle reports failure leaves the world
unchanged.  Base-branch transport only concerns branches no open PR heads,
so it does not act on the tracked state. -/
def interpEff (env : Env) (w : World) : Eff → World
  | .lsRemote _ => w
  | .fetchBaseBranch _ => w
  | .pushBaseBranch _ => w
  | .fetchHead n b sha _ =>
    if env.fetchHeadOk n b then
      { w with localB := fun x => if x = b then some sha else w.localB x }
    else w
  | .pushHead b _ =>
    if env.pushHeadOk b then
      match w.localB b with
      | some sha =>
        { w with
          originB := fun x => if x = b then some sha else w.originB x,
          prs := w.prs.map (fun p =>
            if p.headRefName = b then { p with headRefOid := sha } else p) }
      | none => w
    else w
  | .createPR h _ t body =>
    if env.createOk h then
      { w with
        prs := w.prs ++ [⟨w.nextNum, t, h, (w.originB h).getD [], body⟩],
        nextNum := w.nextNum + 1 }
    else w
  | .queryState _ => w
  | .mergePR n =>
    if env.mergeOk n then { w with prs := w.prs.filter (fun p => p.number ≠ n) } else w
  | .closePR n =>
    if env.closeOk n then { w with prs := w.prs.filter (fun p => p.number ≠ n) } else w

/-- Modelled from the spec: run an effect trace against the platform world. -/
def interp (env : Env) (w : World) (effs : List Eff) : World :=
  effs.foldl (interpEff env) w

/-- Whether an adapter call touches a PR head branch or creates a PR:
the mutations of the create/update paths. -/
def isHeadMutation : Eff → Bool
  | .fetchHead _ _ _ _ => true
  | .pushHead _ _ => true
  | .createPR _ _ _ _ => true
  | _ => false

/-- Whether an adapter call is a `gh pr create` invocation. -/
def isCreateEff : Eff → Bool
  | .createPR _ _ _ _ => true
  | _ => false

/-- An environment in which every transport and platform command succeeds,
the setting of the idempotence property (a failed command leaves the two
sides unconverged, so the second run would legitimately retry it). -/
def envAllOk (env : Env) : Prop :=
  (∀ b, env.branchOnOrigin b = true) ∧
  (∀ n b, env.fetchHeadOk n b = true) ∧
  (∀ b, env.pushHeadOk b = true) ∧
  (∀ b, env.createOk b = true) ∧
  (∀ n, env.mergeOk n = true) ∧
  (∀ n, env.closeOk n = true)

/-- Invariant of the platform world during the per-item phase of a run that
started from fork snapshot `f0`: branch names and PR numbers stay
duplicate-free, and every open fork PR either descends from a snapshot PR
(same number and branch) or was freshly created during this run under an
already-processed branch name (`done`). -/
def WorldInv (f0 : List ForkPR) (done : List Str) (w : World) : Prop :=
  (w.prs.map ForkPR.headRefName).Nodup ∧
  (w.prs.map ForkPR.number).Nodup ∧
  (∀ fp ∈ w.prs,
    (∃ e ∈ f0, e.number = fp.number ∧ e.headRefName = fp.headRefName) ∨
    (maxNum f0 + 1 ≤ fp.number ∧ fp.number < w.nextNum ∧ fp.headRefName ∈ done)) ∧
  maxNum f0 + 1 ≤ w.nextNum

/-- The numbers of the fork PRs the stale walk will try to merge or close:
the index entries whose branch name is not among the upstream branch
names. -/
def orphanNums (ub : List Str) (entries : List (Str × ForkPR)) : List Nat :=
  (entries.filter (fun e => decide (e.1 ∉ ub))).map (fun e => e.2.number)

/-! ## Lemmas on the dict model -/

theorem dictFind_dictInsert_self {α : Type} (d : List (Str × α)) (k : Str) (v : α) :
    dictFind (dictInsert d k v) k = some v := by
  induction d with
  | nil => simp [dictInsert, dictFind]
  | cons e rest ih =>
    obtain ⟨k', v'⟩ := e
    by_cases h : k' = k
    · simp [dictInsert, dictFind, h]
    · simp [dictInsert, dictFind, h, ih]

theorem dictFind_dictInsert_ne {α : Type} (d : List (Str × α)) (k k' : Str) (v : α)
    (h : k' ≠ k) : dictFind (dictInsert d k v) k' = dictFind d k' := by
  induction d with
  | nil => simp [dictInsert, dictFind, Ne.symm h]
  | cons e rest ih =>
    obtain ⟨k₀, v₀⟩ := e
    simp only [dictInsert]
    by_cases h0 : k₀ = k
    · subst h0
      simp [dictFind, Ne.symm h]
    · rw [if_neg h0]
      simp only [dictFind]
      by_cases h1 : k₀ = k'
      · simp [h1]
      · simp [h1, ih]

theorem mem_dictInsert {α : Type} (d : List (Str × α)) (k : Str) (v : α)
    (e : Str × α) (he : e ∈ dictInsert d k v) : e = (k, v) ∨ e ∈ d := by
  induction d with
  | nil => simpa [dictInsert] using he
  | cons e0 rest ih =>
    obtain ⟨k₀, v₀⟩ := e0
    by_cases h0 : k₀ = k
    · simp only [dictInsert, h0, if_true] at he
      rcases List.mem_cons.mp he with h | h
      · exact Or.inl h
      · exact Or.inr (List.mem_cons.mpr (Or.inr h))
    · simp only [dictInsert, h0, if_false] at he
      rcases List.mem_cons.mp he with h | h
      · exact Or.inr (List.mem_cons.mpr (Or.inl h))
      · rcases ih h with h1 | h1
        · exact Or.inl h1
        · exact Or.inr (List.mem_cons.mpr (Or.inr h1))

theorem dictKeys_dictInsert {α : Type} (d : List (Str × α)) (k : Str) (v : α) :
    dictKeys (dictInsert d k v)
      = if k ∈ dictKeys d then dictKeys d else dictKeys d ++ [k] := by
  induction d with
  | nil =>
    rw [if_neg (by simp [dictKeys])]
    rfl
  | cons e rest ih =>
    obtain ⟨k₀, v₀⟩ := e
    simp only [dictInsert]
    by_cases h0 : k₀ = k
    · subst h0
      rw [if_pos rfl]
      split
      · rfl
      · next hc => exact absurd (List.mem_cons_self k₀ (rest.map Prod.fst)) hc
    · rw [if_neg h0]
      simp only [dictKeys, List.map_cons, List.mem_cons] at ih ⊢
      rw [ih]
      by_cases h1 : k ∈ List.map Prod.fst rest
      · simp [h1, Ne.symm h0]
      · simp [h1, Ne.symm h0]

theorem dictKeys_nodup_dictInsert {α : Type} (d : List (Str × α)) (k : Str) (v : α)
    (h : (dictKeys d).Nodup) : (dictKeys (dictInsert d k v)).Nodup := by
  rw [dictKeys_dictInsert]
  by_cases h1 : k ∈ dictKeys d
  · simpa [h1]
  · simp [h1, List.nodup_append, h, List.Disjoint]
    intro a ha hak
    exact h1 (hak ▸ ha)

theorem length_dictInsert {α : Type} (d : List (Str × α)) (k : Str) (v : α) :
    (dictInsert d k v).length
      = if k ∈ dictKeys d then d.length else d.length + 1 := by
  induction d with
  | nil =>
    rw [if_neg (by simp [dictKeys])]
    rfl
  | cons e rest ih =>
    obtain ⟨k₀, v₀⟩ := e
    simp only [dictInsert]
    by_cases h0 : k₀ = k
    · subst h0
      rw [if_pos rfl]
      split
      · rfl
      · next hc => exact absurd (List.mem_cons_self k₀ (rest.map Prod.fst)) hc
    · rw [if_neg h0]
      simp only [List.length_cons, ih, dictKeys, List.map_cons, List.mem_cons]
      by_cases h1 : k ∈ List.map Prod.fst rest
      · simp [h1, Ne.symm h0]
      · simp [h1, Ne.symm h0]

theorem dictInsert_of_not_mem_keys {α : Type} (d : List (Str × α)) (k : Str) (v : α)
    (h : k ∉ dictKeys d) : dictInsert d k v = d ++ [(k, v)] := by
  induction d with
  | nil => simp [dictInsert]
  | cons e rest ih =>
    obtain ⟨k₀, v₀⟩ := e
    simp only [dictKeys, List.map_cons, List.mem_cons] at h
    push_neg at h
    simp only [dictInsert, if_neg (Ne.symm h.1), List.cons_append]
    rw [ih]
    intro hmem
    exact h.2 hmem

theorem dictFind_foldl_insert (l : List ForkPR) (d : List (Str × ForkPR)) (k : Str) :
    dictFind (l.foldl (fun d pr => dictInsert d pr.headRefName pr) d) k
      = (l.reverse.find? (fun p => p.headRefName == k)).or (dictFind d k) := by
  induction l generalizing d with
  | nil => simp
  | cons p ps ih =>
    simp only [List.foldl_cons, List.reverse_cons, List.find?_append, Option.or_assoc]
    rw [ih]
    congr 1
    by_cases h : p.headRefName = k
    · subst h
      simp [dictFind_dictInsert_self, List.find?]
    · rw [dictFind_dictInsert_ne _ _ _ _ (Ne.symm h)]
      have hb : (p.headRefName == k) = false := by simp [h]
      simp [List.find?, hb]

theorem dictFind_get_fork_prs (l : List ForkPR) (k : Str) :
    dictFind (get_fork_prs l) k = l.reverse.find? (fun p => p.headRefName == k) := by
  rw [get_fork_prs, dictFind_foldl_insert]
  simp [dictFind]

theorem get_fork_prs_keys_nodup (l : List ForkPR) :
    (dictKeys (get_fork_prs l)).Nodup := by
  suffices h : ∀ d : List (Str × ForkPR), (dictKeys d).Nodup →
      (dictKeys (l.foldl (fun d pr => dictInsert d pr.headRefName pr) d)).Nodup by
    exact h [] (by simp [dictKeys])
  induction l with
  | nil => intro d hd; simpa
  | cons p ps ih =>
    intro d hd
    exact ih _ (dictKeys_nodup_dictInsert d _ p hd)

theorem get_fork_prs_length_le (l : List ForkPR) :
    (get_fork_prs l).length ≤ l.length := by
  suffices h : ∀ d : List (Str × ForkPR),
      (l.foldl (fun d pr => dictInsert d pr.headRefName pr) d).length
        ≤ d.length + l.length by
    simpa using h []
  induction l with
  | nil => intro d; simp
  | cons p ps ih =>
    intro d
    calc (List.foldl (fun d pr => dictInsert d pr.headRefName pr)
            (dictInsert d p.headRefName p) ps).length
        ≤ (dictInsert d p.headRefName p).length + ps.length := ih _
      _ ≤ d.length + (p :: ps).length := by
          rw [length_dictInsert]
          split <;> (simp only [List.length_cons]; omega)

theorem mem_foldl_insert_aux (l : List ForkPR) :
    ∀ (sub : List ForkPR), (∀ p ∈ sub, p ∈ l) →
    ∀ d : List (Str × ForkPR),
    (∀ e' ∈ d, e'.2 ∈ l ∧ e'.1 = e'.2.headRefName) →
    ∀ e' ∈ sub.foldl (fun d pr => dictInsert d pr.headRefName pr) d,
      e'.2 ∈ l ∧ e'.1 = e'.2.headRefName := by
  intro sub
  induction sub with
  | nil => intro _ d hd e' he'; exact hd e' he'
  | cons p ps ih =>
    intro hsub d hd e' he'
    refine ih (fun q hq => hsub q (List.mem_cons.mpr (Or.inr hq))) _ ?_ e' he'
    intro e2 he2
    rcases mem_dictInsert d p.headRefName p e2 he2 with h1 | h1
    · subst h1
      exact ⟨hsub p (List.mem_cons.mpr (Or.inl rfl)), rfl⟩
    · exact hd e2 h1

theorem mem_get_fork_prs (l : List ForkPR) (e : Str × ForkPR)
    (he : e ∈ get_fork_prs l) : e.2 ∈ l ∧ e.1 = e.2.headRefName :=
  mem_foldl_insert_aux l l (fun _ hp => hp) [] (by simp) e he

theorem get_fork_prs_of_nodup (l : List ForkPR)
    (h : (l.map ForkPR.headRefName).Nodup) :
    get_fork_prs l = l.map (fun p => (p.headRefName, p)) := by
  suffices hg : ∀ (sub : List ForkPR) (d : List (Str × ForkPR)),
      (sub.map ForkPR.headRefName).Nodup →
      (∀ p ∈ sub, p.headRefName ∉ dictKeys d) →
      sub.foldl (fun d pr => dictInsert d pr.headRefName pr) d
        = d ++ sub.map (fun p => (p.headRefName, p)) by
    simpa using hg l [] h (by simp [dictKeys])
  intro sub
  induction sub with
  | nil => intro d _ _; simp
  | cons p ps ih =>
    intro d hnd hdisj
    rw [List.map_cons] at hnd
    obtain ⟨hhead, htail⟩ := List.nodup_cons.mp hnd
    simp only [List.foldl_cons]
    rw [dictInsert_of_not_mem_keys d _ p (hdisj p (List.mem_cons.mpr (Or.inl rfl)))]
    rw [ih (d ++ [(p.headRefName, p)]) htail ?_]
    · simp
    · intro q hq
      simp only [dictKeys, List.map_append, List.mem_append]
      push_neg
      constructor
      · exact hdisj q (List.mem_cons.mpr (Or.inr hq))
      · simp only [List.map_cons, List.map_nil, List.mem_singleton]
        intro hqp
        exact hhead (hqp ▸ List.mem_map_of_mem ForkPR.headRefName hq)

/-! ## Lemmas on the sort -/

theorem insertByNumber_perm (pr : UpstreamPR) (l : List UpstreamPR) :
    (insertByNumber pr l).Perm (pr :: l) := by
  induction l with
  | nil => simp [insertByNumber]
  | cons q qs ih =>
    simp only [insertByNumber]
    split
    · exact List.Perm.refl _
    · exact ((ih.cons q).trans (List.Perm.swap pr q qs))

theorem sortByNumber_perm (l : List UpstreamPR) : (sortByNumber l).Perm l := by
  induction l with
  | nil => simp [sortByNumber]
  | cons pr prs ih =>
    exact (insertByNumber_perm pr (sortByNumber prs)).trans (ih.cons pr)

/-! ## Small structural lemmas on the embedded functions -/

theorem create_or_update_pr_indep_cleanup (env : Env) (m c : Nat → Bool)
    (pr : UpstreamPR) (branch_name : Str) (fork_prs : List (Str × ForkPR)) :
    create_or_update_pr { env with mergeOk := m, closeOk := c } pr branch_name fork_prs
      = create_or_update_pr env pr branch_name fork_prs := rfl

theorem runItems_indep_cleanup (env : Env) (m c : Nat → Bool)
    (all_prs : List UpstreamPR) (fork_prs : List (Str × ForkPR)) :
    ∀ items, runItems { env with mergeOk := m, closeOk := c } all_prs fork_prs items
      = runItems env all_prs fork_prs items := by
  intro items
  induction items with
  | nil => rfl
  | cons pr rest ih =>
    simp only [runItems, ih, create_or_update_pr_indep_cleanup]

theorem runItems_length (env : Env) (all_prs : List UpstreamPR)
    (fork_prs : List (Str × ForkPR)) :
    ∀ items, (runItems env all_prs fork_prs items).1.length = items.length := by
  intro items
  induction items with
  | nil => rfl
  | cons pr rest ih => simp [runItems, ih]

theorem ensure_base_branch_exists_no_head_mutation (env : Env) (base_ref : Str) :
    ∀ e ∈ (ensure_base_branch_exists env base_ref).2, isHeadMutation e = false := by
  intro e he
  unfold ensure_base_branch_exists at he
  split at he
  · simp at he
    subst he
    rfl
  · split at he
    · split at he <;> (simp at he; rcases he with h | h | h <;> (subst h; rfl))
    · simp at he
      rcases he with h | h <;> (subst h; rfl)

/-! ## Claims -/

/-- C10: the fork index built by `get_fork_prs` is last-write-wins on
duplicate head branch names: lookup returns the last PR in list order with
that branch name, the index's keys are duplicate-free, the index is never
longer than the platform's list and is strictly shorter when two distinct
PRs share a branch name, every index entry is one of the listed PRs keyed by
its own branch name, and the whole reconciliation reads the fork list only
through this index (so PRs dropped from the index are never visited). -/
theorem C10_fork_index_last_write_wins (l : List ForkPR) (k : Str) :
    dictFind (get_fork_prs l) k = l.reverse.find? (fun p => p.headRefName == k) ∧
    (dictKeys (get_fork_prs l)).Nodup ∧
    (get_fork_prs l).length ≤ l.length ∧
    (∀ e ∈ get_fork_prs l, e.2 ∈ l ∧ e.1 = e.2.headRefName) ∧
    (∀ p q, p ∈ l → q ∈ l → p ≠ q → p.headRefName = q.headRefName →
      (get_fork_prs l).length < l.length) ∧
    (∀ (env : Env) (u : List UpstreamPR) (l' : List ForkPR),
      get_fork_prs l' = get_fork_prs l → sync_prs env u l' = sync_prs env u l) := by
  refine ⟨dictFind_get_fork_prs l k, get_fork_prs_keys_nodup l,
    get_fork_prs_length_le l, fun e he => mem_get_fork_prs l e he, ?_, ?_⟩
  · intro p q hp hq hne heq
    have hkeys := get_fork_prs_keys_nodup l
    have hsub : dictKeys (get_fork_prs l) ⊆ l.map ForkPR.headRefName := by
      intro x hx
      rcases List.mem_map.mp hx with ⟨e, he, rfl⟩
      obtain ⟨hmem, hkey⟩ := mem_get_fork_prs l e he
      rw [hkey]
      exact List.mem_map_of_mem _ hmem
    have hsp := List.subperm_of_subset hkeys hsub
    have hlen : (get_fork_prs l).length = (dictKeys (get_fork_prs l)).length := by
      simp [dictKeys]
    have hnotnodup : ¬ (l.map ForkPR.headRefName).Nodup := by
      intro hnd
      exact hne (List.inj_on_of_nodup_map hnd hp hq heq)
    by_contra hge
    push_neg at hge
    have hperm := hsp.perm_of_length_le (by rw [hlen] at hge; simpa using hge)
    exact hnotnodup (hperm.nodup_iff.mp hkeys)
  · intro env u l' hidx
    simp only [sync_prs, hidx]

/-- C2: if exactly one PR of the full upstream open set shares a head branch
name, the resolved branch name is that name verbatim; if two or more share
it, the name is suffixed with a dash and the PR's own number, and the
resulting names of distinct-id sharers are pairwise distinct. -/
theorem C2_branch_name_disambiguation (pr : UpstreamPR) (all_prs : List UpstreamPR) :
    (all_prs.countP (fun p => p.headRefName == pr.headRefName) = 1 →
      get_branch_name pr all_prs = pr.headRefName) ∧
    (2 ≤ all_prs.countP (fun p => p.headRefName == pr.headRefName) →
      get_branch_name pr all_prs = pr.headRefName ++ '-' :: natRepr pr.number) ∧
    (∀ pr₂ : UpstreamPR, pr₂.headRefName = pr.headRefName → pr₂.number ≠ pr.number →
      2 ≤ all_prs.countP (fun p => p.headRefName == pr.headRefName) →
      get_branch_name pr all_prs ≠ get_branch_name pr₂ all_prs) := by
  refine ⟨?_, ?_, ?_⟩
  · intro h1
    simp [get_branch_name, h1]
  · intro h2
    simp only [get_branch_name]
    rw [if_pos (by omega)]
  · intro pr₂ hname hnum h2
    simp only [get_branch_name, hname]
    rw [if_pos (by omega), if_pos (by omega)]
    intro hcontra
    have h3 := List.append_cancel_left hcontra
    simp only [List.cons.injEq, true_and] at h3
    exact hnum (natRepr_injective h3).symm

/-- Witness for C2 at a concrete three-PR upstream set: `feat-y` is unique
and kept verbatim, `feat-x` is shared by PRs 10 and 11 and suffixed, and the
two suffixed names differ. -/
theorem C2_branch_name_disambiguation_witness :
    get_branch_name ⟨7, [], [], "feat-y".data, [], [], []⟩
        [⟨10, [], [], "feat-x".data, [], [], []⟩, ⟨11, [], [], "feat-x".data, [], [], []⟩,
         ⟨7, [], [], "feat-y".data, [], [], []⟩]
      = "feat-y".data ∧
    get_branch_name ⟨10, [], [], "feat-x".data, [], [], []⟩
        [⟨10, [], [], "feat-x".data, [], [], []⟩, ⟨11, [], [], "feat-x".data, [], [], []⟩,
         ⟨7, [], [], "feat-y".data, [], [], []⟩]
      = "feat-x".data ++ '-' :: natRepr 10 ∧
    get_branch_name ⟨10, [], [], "feat-x".data, [], [], []⟩
        [⟨10, [], [], "feat-x".data, [], [], []⟩, ⟨11, [], [], "feat-x".data, [], [], []⟩,
         ⟨7, [], [], "feat-y".data, [], [], []⟩]
      ≠ get_branch_name ⟨11, [], [], "feat-x".data, [], [], []⟩
        [⟨10, [], [], "feat-x".data, [], [], []⟩, ⟨11, [], [], "feat-x".data, [], [], []⟩,
         ⟨7, [], [], "feat-y".data, [], [], []⟩] :=
  ⟨(C2_branch_name_disambiguation _ _).1 (by decide),
   (C2_branch_name_disambiguation _ _).2.1 (by decide),
   (C2_branch_name_disambiguation _ _).2.2 ⟨11, [], [], "feat-x".data, [], [], []⟩
     (by decide) (by decide) (by decide)⟩

/-- C3: when the fork index has a PR under the resolved branch name and its
head commit equals the upstream head commit, `create_or_update_pr` returns
`unchanged` and issues no adapter call at all; the hypothesis constrains only
the head commit, so head-commit equality is the sole signal compared. -/
theorem C3_unchanged_is_pure_noop (env : Env) (pr : UpstreamPR) (branch_name : Str)
    (fork_prs : List (Str × ForkPR)) (existing : ForkPR)
    (h1 : dictFind fork_prs branch_name = some existing)
    (h2 : existing.headRefOid = pr.headRefOid) :
    create_or_update_pr env pr branch_name fork_prs = (.unchanged, []) := by
  simp [create_or_update_pr, h1, h2]

/-- Witness for C3: a concrete in-sync fork PR yields `unchanged` with an
empty effect trace. -/
theorem C3_unchanged_is_pure_noop_witness :
    dictFind [("b".data, (⟨3, [], "b".data, "sha1".data, []⟩ : ForkPR))] "b".data
      = some ⟨3, [], "b".data, "sha1".data, []⟩ ∧
    create_or_update_pr
      ⟨fun _ => true, fun _ => true, fun _ => true, fun _ _ => true, fun _ => true,
       fun _ => true, fun _ => true, fun _ => true, fun _ => some false⟩
      ⟨1, "t".data, "main".data, "b".data, "sha1".data, [], "a".data⟩
      "b".data [("b".data, ⟨3, [], "b".data, "sha1".data, []⟩)]
      = (.unchanged, []) :=
  ⟨by decide,
   C3_unchanged_is_pure_noop _ _ _ _ ⟨3, [], "b".data, "sha1".data, []⟩ (by decide) rfl⟩

/-- C4: the process exit code is `0` exactly when no creation/update outcome
is `failed`, and replacing the success behaviour of the merge and close
commands (the stale-cleanup mutations) by anything else leaves the exit code
unchanged. -/
theorem C4_exit_code_ignores_cleanup_failures (env : Env) (u : List UpstreamPR)
    (f : List ForkPR) (m c : Nat → Bool) :
    (mainExit env u f = 0 ↔ (sync_prs env u f).outcomes.count .failed = 0) ∧
    mainExit { env with mergeOk := m, closeOk := c } u f = mainExit env u f := by
  constructor
  · by_cases h : (sync_prs env u f).outcomes.count .failed = 0
    · simp [mainExit, syncOk, h]
    · simp [mainExit, syncOk, h]
  · have houtcomes : (sync_prs { env with mergeOk := m, closeOk := c } u f).outcomes
        = (sync_prs env u f).outcomes := by
      simp only [sync_prs, runItems_indep_cleanup]
    simp only [mainExit, syncOk, houtcomes]

/-- C5: a stale fork PR whose body has no recoverable back-reference is
always resolved as `closed`, never `merged`, and no `gh pr view` state query
is issued for it; prepending such an item to the stale walk prepends exactly
one `closed` resolution. -/
theorem C5_no_backref_always_closed (env : Env) (fpr : ForkPR)
    (h : extract_upstream_pr_num fpr.body = none) :
    (staleStep env fpr).1 = .closed ∧
    (∀ n, Eff.queryState n ∉ (staleStep env fpr).2) ∧
    (∀ (ub : List Str) (b : Str) (rest : List (Str × ForkPR)), b ∉ ub →
      (close_or_merge_stale_prs env ub ((b, fpr) :: rest)).1
        = .closed :: (close_or_merge_stale_prs env ub rest).1) := by
  have hs : staleStep env fpr = (.closed, [.closePR fpr.number]) := by
    simp [staleStep, h]
  refine ⟨by rw [hs], ?_, ?_⟩
  · intro n
    rw [hs]
    simp
  · intro ub b rest hb
    simp [close_or_merge_stale_prs, hb, hs]

/-- Witness for C5: a fork PR whose body lacks the pattern is closed without
a state query. -/
theorem C5_no_backref_always_closed_witness :
    extract_upstream_pr_num (⟨4, [], "old".data, [], "no reference here".data⟩ : ForkPR).body
      = none ∧
    (staleStep
      ⟨fun _ => true, fun _ => true, fun _ => true, fun _ _ => true, fun _ => true,
       fun _ => true, fun _ => true, fun _ => true, fun _ => some true⟩
      ⟨4, [], "old".data, [], "no reference here".data⟩).1 = .closed :=
  ⟨by decide,
   (C5_no_backref_always_closed _ ⟨4, [], "old".data, [], "no reference here".data⟩
     (by decide)).1⟩

/-- C8: when an upstream PR has no fork counterpart and its base branch
cannot be ensured on the fork remote, `create_or_update_pr` returns `failed`
(it is a total function, so no exception escapes), issues no head-branch
fetch or push and no PR creation, and the run loop still produces one
outcome per upstream item, so the run proceeds past the failed item. -/
theorem C8_base_branch_failure_skips_item (env : Env) (pr : UpstreamPR)
    (branch_name : Str) (fork_prs : List (Str × ForkPR))
    (h1 : dictFind fork_prs branch_name = none)
    (h2 : env.branchOnOrigin pr.baseRefName = false)
    (h3 : env.fetchBaseOk pr.baseRefName = false ∨ env.pushBaseOk pr.baseRefName = false) :
    (create_or_update_pr env pr branch_name fork_prs).1 = .failed ∧
    (∀ e ∈ (create_or_update_pr env pr branch_name fork_prs).2,
      isHeadMutation e = false) ∧
    (∀ (u : List UpstreamPR) (f : List ForkPR),
      (sync_prs env u f).outcomes.length = u.length) := by
  have hens : (ensure_base_branch_exists env pr.baseRefName).1 = false := by
    unfold ensure_base_branch_exists
    rcases h3 with h3 | h3
    · simp [h2, h3]
    · by_cases h4 : env.fetchBaseOk pr.baseRefName = true
      · simp [h2, h3, h4]
      · simp [h2, h4]
    -- either the fetch or the push of the base branch fails
  have hcr : create_or_update_pr env pr branch_name fork_prs
      = (.failed, (ensure_base_branch_exists env pr.baseRefName).2) := by
    unfold create_or_update_pr
    rw [h1]
    rcases hE : ensure_base_branch_exists env pr.baseRefName with ⟨ok, effs⟩
    rw [hE] at hens
    simp only at hens
    subst hens
    rfl
  refine ⟨by rw [hcr], ?_, ?_⟩
  · rw [hcr]
    exact ensure_base_branch_exists_no_head_mutation env pr.baseRefName
  · intro u f
    have := runItems_length env u (get_fork_prs f) (sortByNumber u)
    simp only [sync_prs, this]
    exact (sortByNumber_perm u).length_eq

/-- Witness for C8 at a concrete environment in which the base branch is
absent from origin and cannot be fetched. -/
theorem C8_base_branch_failure_skips_item_witness :
    dictFind ([] : List (Str × ForkPR)) "b".data = none ∧
    (create_or_update_pr
      ⟨fun _ => false, fun _ => false, fun _ => true, fun _ _ => true, fun _ => true,
       fun _ => true, fun _ => true, fun _ => true, fun _ => some false⟩
      ⟨1, "t".data, "main".data, "b".data, "sha1".data, [], "a".data⟩
      "b".data []).1 = .failed :=
  ⟨rfl,
   (C8_base_branch_failure_skips_item _
     ⟨1, "t".data, "main".data, "b".data, "sha1".data, [], "a".data⟩
     "b".data [] rfl rfl (Or.inl rfl)).1⟩

/-- C1 (code bug evidence): a stale fork PR whose back-reference resolves to
a merged upstream PR is counted as `merged` even though the merge command
fails (`mergeOk 10 = false`): the merge is run with `check=False`, which
never raises, so the `except` fallback that would close it is unreachable;
no close command is issued and the fork PR is left open (the world after
interpreting the trace still lists it). -/
theorem C1_failed_merge_still_counted_merged :
    (close_or_merge_stale_prs
        ⟨fun _ => true, fun _ => true, fun _ => true, fun _ _ => true, fun _ => true,
         fun _ => true, fun _ => false, fun _ => true, fun _ => some true⟩
        [] [("feat-x".data, ⟨5, [], "feat-x".data, [], "facebook/react#10".data⟩)]).1
      = [.merged] ∧
    (close_or_merge_stale_prs
        ⟨fun _ => true, fun _ => true, fun _ => true, fun _ _ => true, fun _ => true,
         fun _ => true, fun _ => false, fun _ => true, fun _ => some true⟩
        [] [("feat-x".data, ⟨5, [], "feat-x".data, [], "facebook/react#10".data⟩)]).2
      = [.queryState 10, .mergePR 5] ∧
    (Env.mergeOk
      ⟨fun _ => true, fun _ => true, fun _ => true, fun _ _ => true, fun _ => true,
       fun _ => true, fun _ => false, fun _ => true, fun _ => some true⟩ 10 = false) ∧
    (interp
        ⟨fun _ => true, fun _ => true, fun _ => true, fun _ _ => true, fun _ => true,
         fun _ => true, fun _ => false, fun _ => true, fun _ => some true⟩
        (initWorld [⟨5, [], "feat-x".data, [], "facebook/react#10".data⟩])
        (close_or_merge_stale_prs
          ⟨fun _ => true, fun _ => true, fun _ => true, fun _ _ => true, fun _ => true,
           fun _ => true, fun _ => false, fun _ => true, fun _ => some true⟩
          [] [("feat-x".data, ⟨5, [], "feat-x".data, [], "facebook/react#10".data⟩)]).2).prs
      = [⟨5, [], "feat-x".data, [], "facebook/react#10".data⟩] := by
  refine ⟨by decide, by decide, rfl, by decide⟩

theorem mkMirrorBody_shape (n : Nat) (a bd : Str) :
    mkMirrorBody n a bd
      = "**Mirror of [".data ++ ("facebook/react#".data ++ natRepr n)
        ++ ("](https://github.com/facebook/react/pull/".data ++ natRepr n
            ++ ")**\n**Original author:** ".data)
        ++ a ++ "\n\n---\n\n".data ++ bd := by
  have hsplit : "**Mirror of [facebook/react#".data
      = "**Mirror of [".data ++ "facebook/react#".data := by decide
  rw [mkMirrorBody, hsplit]
  simp [List.append_assoc]

/-- C6: an upstream PR with no fork counterpart whose base branch is ensured
and whose branch and PR creation commands succeed yields exactly one
`created` outcome with exactly one PR-creation call, and the created PR's
body contains the exact back-reference text `facebook/react#` followed by
the upstream PR number, then the original author handle, then the original
body, in that order. -/
theorem C6_created_pr_carries_backref (env : Env) (pr : UpstreamPR)
    (branch_name : Str) (fork_prs : List (Str × ForkPR))
    (h1 : dictFind fork_prs branch_name = none)
    (h2 : (ensure_base_branch_exists env pr.baseRefName).1 = true)
    (h3 : env.fetchHeadOk pr.number branch_name = true)
    (h4 : env.pushHeadOk branch_name = true)
    (h5 : env.createOk branch_name = true) :
    (create_or_update_pr env pr branch_name fork_prs).1 = .created ∧
    (create_or_update_pr env pr branch_name fork_prs).2.countP isCreateEff = 1 ∧
    (∀ h0 bs t bd,
      Eff.createPR h0 bs t bd ∈ (create_or_update_pr env pr branch_name fork_prs).2 →
      h0 = branch_name ∧ bs = pr.baseRefName ∧ t = pr.title ∧
      ∃ s₁ s₂ s₃, bd = s₁ ++ ("facebook/react#".data ++ natRepr pr.number) ++ s₂
        ++ pr.authorLogin ++ s₃ ++ pr.body) := by
  rcases hE : ensure_base_branch_exists env pr.baseRefName with ⟨ok, effs⟩
  rw [hE] at h2
  simp only at h2
  subst h2
  have hcr : create_or_update_pr env pr branch_name fork_prs
      = (.created, effs ++ [.fetchHead pr.number branch_name pr.headRefOid false,
                            .pushHead branch_name false,
                            .createPR branch_name pr.baseRefName pr.title
                              (mkMirrorBody pr.number pr.authorLogin pr.body)]) := by
    unfold create_or_update_pr
    rw [h1, hE]
    simp [h3, h4, h5]
  have hnocreate : ∀ e ∈ effs, ¬ isCreateEff e = true := by
    intro e he
    have hm := ensure_base_branch_exists_no_head_mutation env pr.baseRefName e
      (by rw [hE]; exact he)
    cases e <;> simp_all [isHeadMutation, isCreateEff]
  refine ⟨by rw [hcr], ?_, ?_⟩
  · rw [hcr]
    rw [List.countP_append, List.countP_eq_zero.mpr hnocreate]
    rfl
  · intro h0 bs t bd hmem
    rw [hcr] at hmem
    simp only [List.mem_append, List.mem_cons, List.not_mem_nil, or_false] at hmem
    rcases hmem with hmem | hmem | hmem | hmem
    · exact absurd rfl (hnocreate _ hmem)
    · exact absurd hmem (by simp)
    · exact absurd hmem (by simp)
    · obtain ⟨hh, hb, ht, hbd⟩ := Eff.createPR.inj hmem
      refine ⟨hh, hb, ht, "**Mirror of [".data,
        "](https://github.com/facebook/react/pull/".data ++ natRepr pr.number
          ++ ")**\n**Original author:** ".data,
        "\n\n---\n\n".data, ?_⟩
      rw [hbd, mkMirrorBody_shape]

/-- Witness for C6 at a concrete upstream PR and an all-succeeding
environment with an empty fork. -/
theorem C6_created_pr_carries_backref_witness :
    dictFind ([] : List (Str × ForkPR)) "feat".data = none ∧
    (create_or_update_pr
      ⟨fun _ => true, fun _ => true, fun _ => true, fun _ _ => true, fun _ => true,
       fun _ => true, fun _ => true, fun _ => true, fun _ => some false⟩
      ⟨10, "T".data, "main".data, "feat".data, "sha".data, "orig".data, "alice".data⟩
      "feat".data []).1 = .created :=
  ⟨rfl,
   (C6_created_pr_carries_backref
     ⟨fun _ => true, fun _ => true, fun _ => true, fun _ _ => true, fun _ => true,
      fun _ => true, fun _ => true, fun _ => true, fun _ => some false⟩
     ⟨10, "T".data, "main".data, "feat".data, "sha".data, "orig".data, "alice".data⟩
     "feat".data [] rfl (by decide) rfl rfl rfl).1⟩

/-- Witness for C10 at a concrete two-element fork list sharing one branch
name: the index is strictly shorter and lookup returns the later PR. -/
theorem C10_fork_index_last_write_wins_witness :
    (get_fork_prs [⟨1, [], "b".data, "s1".data, []⟩, ⟨2, [], "b".data, "s2".data, []⟩]).length
      < ([⟨1, [], "b".data, "s1".data, []⟩, ⟨2, [], "b".data, "s2".data, []⟩] : List ForkPR).length ∧
    dictFind (get_fork_prs [⟨1, [], "b".data, "s1".data, []⟩, ⟨2, [], "b".data, "s2".data, []⟩])
        "b".data = some ⟨2, [], "b".data, "s2".data, []⟩ :=
  ⟨(C10_fork_index_last_write_wins
      [⟨1, [], "b".data, "s1".data, []⟩, ⟨2, [], "b".data, "s2".data, []⟩] "b".data).2.2.2.2.1
      ⟨1, [], "b".data, "s1".data, []⟩ ⟨2, [], "b".data, "s2".data, []⟩
      (by decide) (by decide) (by decide) rfl,
   ((C10_fork_index_last_write_wins
      [⟨1, [], "b".data, "s1".data, []⟩, ⟨2, [], "b".data, "s2".data, []⟩] "b".data).1).trans
      (by decide)⟩

/-- Witness for C4 at a concrete environment and empty snapshots, flipping
the merge and close oracles to constant failure. -/
theorem C4_exit_code_ignores_cleanup_failures_witness :
    (mainExit
        ⟨fun _ => true, fun _ => true, fun _ => true, fun _ _ => true, fun _ => true,
         fun _ => true, fun _ => true, fun _ => true, fun _ => some false⟩ [] [] = 0 ↔
      (sync_prs
        ⟨fun _ => true, fun _ => true, fun _ => true, fun _ _ => true, fun _ => true,
         fun _ => true, fun _ => true, fun _ => true, fun _ => some false⟩
        [] []).outcomes.count .failed = 0) ∧
    mainExit
      { (⟨fun _ => true, fun _ => true, fun _ => true, fun _ _ => true, fun _ => true,
          fun _ => true, fun _ => true, fun _ => true, fun _ => some false⟩ : Env) with
        mergeOk := fun _ => false, closeOk := fun _ => false } [] []
      = mainExit
        ⟨fun _ => true, fun _ => true, fun _ => true, fun _ _ => true, fun _ => true,
         fun _ => true, fun _ => true, fun _ => true, fun _ => some false⟩ [] [] :=
  ⟨(C4_exit_code_ignores_cleanup_failures _ [] [] (fun _ => false) (fun _ => false)).1,
   (C4_exit_code_ignores_cleanup_failures _ [] [] (fun _ => false) (fun _ => false)).2⟩

/-! ## Lemmas on the regex-scan model, for the round-trip claim -/

theorem findBackref_cons (c : Char) (cs : Str)
    (h : reactPat.isPrefixOf (c :: cs) = false) :
    findBackref (c :: cs) = findBackref cs := by
  simp [findBackref, matchDigitsAt, h]

theorem findBackref_cons_some (c : Char) (cs ds : Str)
    (h : matchDigitsAt (c :: cs) = some ds) :
    findBackref (c :: cs) = some ds := by
  simp [findBackref, h]

theorem takeWhile_append_of_all (p : Char → Bool) (a : Str) (c : Char) (y : Str)
    (ha : ∀ x ∈ a, p x = true) (hc : p c = false) :
    (a ++ c :: y).takeWhile p = a := by
  induction a with
  | nil => simp [List.takeWhile_cons, hc]
  | cons x xs ih =>
    rw [List.cons_append, List.takeWhile_cons,
      if_pos (ha x (List.mem_cons.mpr (Or.inl rfl)))]
    rw [ih (fun z hz => ha z (List.mem_cons.mpr (Or.inr hz)))]

theorem findBackref_append_pattern (ds : Str) (c : Char) (y : Str)
    (hne : ds ≠ []) (hds : ∀ x ∈ ds, x.isDigit = true) (hc : c.isDigit = false) :
    findBackref (reactPat ++ (ds ++ c :: y)) = some ds := by
  have hmatch : matchDigitsAt (reactPat ++ (ds ++ c :: y)) = some ds := by
    have hpre : reactPat.isPrefixOf (reactPat ++ (ds ++ c :: y)) = true := by
      rw [List.isPrefixOf_iff_prefix]
      exact List.prefix_append _ _
    have hdrop : (reactPat ++ (ds ++ c :: y)).drop reactPat.length = ds ++ c :: y :=
      List.drop_left _ _
    have hempty : ds.isEmpty = false := by
      cases ds with
      | nil => exact absurd rfl hne
      | cons a as => rfl
    simp only [matchDigitsAt, hpre, if_true, hdrop,
      takeWhile_append_of_all Char.isDigit ds c y hds hc, hempty]
    rfl
  have hcons : reactPat ++ (ds ++ c :: y)
      = 'f' :: ("acebook/react#".data ++ (ds ++ c :: y)) := rfl
  rw [hcons] at hmatch ⊢
  exact findBackref_cons_some _ _ _ hmatch

/-- C9: the persisted linkage round-trips: for every upstream PR number,
author handle, and original body (even one containing its own back-reference
texts), extracting the upstream PR number from the mirror body template
returns that number, because the template's own back-reference is the
leftmost match of the pattern. -/
theorem C9_backref_roundtrip (n : Nat) (author body : Str) :
    extract_upstream_pr_num (mkMirrorBody n author body) = some n := by
  unfold extract_upstream_pr_num mkMirrorBody
  rw [show "**Mirror of [facebook/react#".data = "**Mirror of [".data ++ reactPat
      from by decide,
    show "](https://github.com/facebook/react/pull/".data
      = ']' :: "(https://github.com/facebook/react/pull/".data from by decide]
  simp only [List.append_assoc, List.cons_append, List.nil_append]
  repeat rw [findBackref_cons _ _ (by simp [reactPat, List.isPrefixOf])]
  rw [findBackref_append_pattern (natRepr n) ']' _ (natRepr_ne_nil n)
    (natRepr_isDigit n) (by decide)]
  simp [parseDigits_natRepr]

/-! ## Lemmas for the idempotence claim -/

theorem le_maxNum (l : List ForkPR) : ∀ p ∈ l, p.number ≤ maxNum l := by
  induction l with
  | nil => intro p hp; simp at hp
  | cons q qs ih =>
    intro p hp
    rcases List.mem_cons.mp hp with h | h
    · subst h
      simp [maxNum]
    · have := ih p h
      simp only [maxNum, List.foldr_cons] at *
      omega

theorem dictFind_get_fork_prs_some (l : List ForkPR) (k : Str) (v : ForkPR)
    (h : dictFind (get_fork_prs l) k = some v) : v ∈ l ∧ v.headRefName = k := by
  rw [dictFind_get_fork_prs] at h
  refine ⟨List.mem_reverse.mp (List.mem_of_find?_eq_some h), ?_⟩
  have := List.find?_some h
  simpa using this

theorem dictFind_get_fork_prs_none (l : List ForkPR) (k : Str)
    (h : dictFind (get_fork_prs l) k = none) : ∀ p ∈ l, p.headRefName ≠ k := by
  rw [dictFind_get_fork_prs] at h
  intro p hp
  have := List.find?_eq_none.mp h p (List.mem_reverse.mpr hp)
  simpa using this

theorem dictFind_eq_of_mem_nodup (l : List ForkPR)
    (h3 : (l.map ForkPR.headRefName).Nodup) (fp : ForkPR) (hfp : fp ∈ l) :
    dictFind (get_fork_prs l) fp.headRefName = some fp := by
  rcases hfind : dictFind (get_fork_prs l) fp.headRefName with _ | z
  · exact absurd rfl (dictFind_get_fork_prs_none l _ hfind fp hfp)
  · obtain ⟨hz, hzk⟩ := dictFind_get_fork_prs_some l _ z hfind
    rw [List.inj_on_of_nodup_map h3 hz hfp hzk]

theorem interp_append (env : Env) (w : World) (a b : List Eff) :
    interp env w (a ++ b) = interp env (interp env w a) b :=
  List.foldl_append _ _ a b

theorem staleStep_interp (env : Env) (hmg : ∀ n, env.mergeOk n = true)
    (hcl : ∀ n, env.closeOk n = true) (p : ForkPR) (w : World) :
    (interp env w (staleStep env p).2).prs
      = w.prs.filter (fun q => q.number ≠ p.number) := by
  unfold staleStep
  rcases extract_upstream_pr_num p.body with _ | n
  · simp [interp, interpEff, hcl p.number]
  · simp only
    split
    · simp [interp, interpEff, hcl p.number]
    · rcases env.upstreamMerged n with _ | b
      · simp [interp, interpEff, hcl p.number]
      · rcases b with _ | _
        · simp [interp, interpEff, hcl p.number]
        · simp [interp, interpEff, hmg p.number]

theorem close_or_merge_all_live (env : Env) (ub : List Str) :
    ∀ entries : List (Str × ForkPR), (∀ e ∈ entries, e.1 ∈ ub) →
    close_or_merge_stale_prs env ub entries = ([], []) := by
  intro entries
  induction entries with
  | nil => intro _; rfl
  | cons e rest ih =>
    intro hall
    obtain ⟨b, p⟩ := e
    have hb : b ∈ ub := hall (b, p) (List.mem_cons.mpr (Or.inl rfl))
    simp only [close_or_merge_stale_prs, if_pos hb]
    exact ih (fun e' he' => hall e' (List.mem_cons.mpr (Or.inr he')))

theorem interp_stale_phase (env : Env) (hmg : ∀ n, env.mergeOk n = true)
    (hcl : ∀ n, env.closeOk n = true) (ub : List Str) :
    ∀ (entries : List (Str × ForkPR)) (w : World),
    (interp env w (close_or_merge_stale_prs env ub entries).2).prs
      = w.prs.filter (fun fp => fp.number ∉ orphanNums ub entries) := by
  intro entries
  induction entries with
  | nil =>
    intro w
    simp [close_or_merge_stale_prs, interp, orphanNums]
  | cons e rest ih =>
    intro w
    obtain ⟨b, p⟩ := e
    by_cases hb : b ∈ ub
    · simp only [close_or_merge_stale_prs, if_pos hb]
      rw [ih w]
      have horph : orphanNums ub ((b, p) :: rest) = orphanNums ub rest := by
        simp [orphanNums, List.filter_cons, hb]
      rw [horph]
    · simp only [close_or_merge_stale_prs, if_neg hb]
      rw [interp_append, ih, staleStep_interp env hmg hcl p w]
      rw [List.filter_filter]
      have horph : orphanNums ub ((b, p) :: rest) = p.number :: orphanNums ub rest := by
        simp [orphanNums, List.filter_cons, hb]
      rw [horph]
      apply List.filter_congr
      intro q _
      by_cases h1 : q.number = p.number
      · simp [h1]
      · simp [h1]

theorem map_name_map_update (b sha : Str) (l : List ForkPR) :
    (l.map (fun p => if p.headRefName = b then { p with headRefOid := sha } else p)).map
        ForkPR.headRefName
      = l.map ForkPR.headRefName := by
  rw [List.map_map]
  apply List.map_congr_left
  intro a _
  by_cases h : a.headRefName = b <;> simp [h]

theorem map_number_map_update (b sha : Str) (l : List ForkPR) :
    (l.map (fun p => if p.headRefName = b then { p with headRefOid := sha } else p)).map
        ForkPR.number
      = l.map ForkPR.number := by
  rw [List.map_map]
  apply List.map_congr_left
  intro a _
  by_cases h : a.headRefName = b <;> simp [h]

theorem mem_map_update_exists (b sha : Str) (l : List ForkPR) (fp : ForkPR)
    (h : fp ∈ l.map (fun p => if p.headRefName = b then { p with headRefOid := sha } else p)) :
    ∃ fp0 ∈ l, fp0.number = fp.number ∧ fp0.headRefName = fp.headRefName ∧
      (fp0.headRefName ≠ b → fp = fp0) := by
  rcases List.mem_map.mp h with ⟨fp0, h0, rfl⟩
  by_cases hb : fp0.headRefName = b
  · exact ⟨fp0, h0, by simp [hb], by simp [hb], by simp [hb]⟩
  · exact ⟨fp0, h0, by simp [hb], by simp [hb], fun _ => by simp [hb]⟩

theorem map_update_eq_self (b sha : Str) (l : List ForkPR)
    (h : ∀ p ∈ l, p.headRefName ≠ b) :
    l.map (fun p => if p.headRefName = b then { p with headRefOid := sha } else p) = l := by
  rw [show l.map (fun p => if p.headRefName = b then { p with headRefOid := sha } else p)
      = l.map id from List.map_congr_left (fun a ha => by simp [h a ha])]
  exact List.map_id l

theorem WorldInv_mono_done (f0 : List ForkPR) (d1 d2 : List Str) (w : World)
    (hsub : ∀ x ∈ d1, x ∈ d2) (h : WorldInv f0 d1 w) : WorldInv f0 d2 w := by
  obtain ⟨a, b, c, d⟩ := h
  refine ⟨a, b, fun fp hfp => ?_, d⟩
  rcases c fp hfp with h1 | ⟨h1, h2, h3⟩
  · exact Or.inl h1
  · exact Or.inr ⟨h1, h2, hsub _ h3⟩

theorem update_preserves_name (b sha : Str) (p : ForkPR) :
    (if p.headRefName = b then { p with headRefOid := sha } else p).headRefName
      = p.headRefName := by
  by_cases h : p.headRefName = b <;> simp [h]

theorem runItems_world_inv (env : Env) (u : List UpstreamPR) (f0 : List ForkPR)
    (hok : envAllOk env)
    (hf0names : (f0.map ForkPR.headRefName).Nodup) :
    ∀ (items : List UpstreamPR) (done : List Str) (w : World),
    (items.map (fun p => get_branch_name p u)).Nodup →
    (∀ p ∈ items, get_branch_name p u ∉ done) →
    WorldInv f0 done w →
    (∀ p ∈ items, ∀ fp ∈ w.prs, fp.headRefName = get_branch_name p u → fp ∈ f0) →
    (∀ e ∈ f0, ∃ fp ∈ w.prs, fp.headRefName = e.headRefName) →
    WorldInv f0 (done ++ items.map (fun p => get_branch_name p u))
        (interp env w (runItems env u (get_fork_prs f0) items).2) ∧
    (∀ p ∈ items,
      ∃ fp ∈ (interp env w (runItems env u (get_fork_prs f0) items).2).prs,
        fp.headRefName = get_branch_name p u ∧ fp.headRefOid = p.headRefOid) ∧
    (∀ fp ∈ w.prs, fp.headRefName ∉ items.map (fun p => get_branch_name p u) →
        fp ∈ (interp env w (runItems env u (get_fork_prs f0) items).2).prs) ∧
    (∀ e ∈ f0, ∃ fp ∈ (interp env w (runItems env u (get_fork_prs f0) items).2).prs,
        fp.headRefName = e.headRefName) := by
  obtain ⟨hok1, hok2, hok3, hok4, hok5, hok6⟩ := hok
  intro items
  induction items with
  | nil =>
    intro done w h1 h2 hw hpend hkeep
    refine ⟨by simpa using hw, by simp, ?_, ?_⟩
    · intro fp hfp _
      simpa [runItems, interp] using hfp
    · intro e he
      rcases hkeep e he with ⟨fp, hfp, hname⟩
      exact ⟨fp, by simpa [runItems, interp] using hfp, hname⟩
  | cons pr rest ih =>
    intro done w h1 h2 hw hpend hkeep
    obtain ⟨hN1, hN2, hN3, hN4⟩ := hw
    have hbn_rest : get_branch_name pr u ∉ rest.map (fun p => get_branch_name p u) := by
      rw [List.map_cons, List.nodup_cons] at h1
      exact h1.1
    have h1_rest : (rest.map (fun p => get_branch_name p u)).Nodup := by
      rw [List.map_cons, List.nodup_cons] at h1
      exact h1.2
    have hb_done : get_branch_name pr u ∉ done := h2 pr (List.mem_cons.mpr (Or.inl rfl))
    have hdone_rest : ∀ p ∈ rest, get_branch_name p u ∉ done ++ [get_branch_name pr u] := by
      intro p hp
      rw [List.mem_append]
      push_neg
      refine ⟨h2 p (List.mem_cons.mpr (Or.inr hp)), ?_⟩
      simp only [List.mem_singleton]
      intro hcontra
      exact hbn_rest (hcontra ▸ List.mem_map_of_mem (fun p => get_branch_name p u) hp)
    have heffs : (runItems env u (get_fork_prs f0) (pr :: rest)).2
        = (create_or_update_pr env pr (get_branch_name pr u) (get_fork_prs f0)).2
          ++ (runItems env u (get_fork_prs f0) rest).2 := rfl
    have houts : ∀ p ∈ rest, p ∈ pr :: rest := fun p hp => List.mem_cons.mpr (Or.inr hp)
    rcases hfind : dictFind (get_fork_prs f0) (get_branch_name pr u) with _ | existing
    · -- create path
      have hstep : create_or_update_pr env pr (get_branch_name pr u) (get_fork_prs f0)
          = (.created,
             [.lsRemote pr.baseRefName,
              .fetchHead pr.number (get_branch_name pr u) pr.headRefOid false,
              .pushHead (get_branch_name pr u) false,
              .createPR (get_branch_name pr u) pr.baseRefName pr.title
                (mkMirrorBody pr.number pr.authorLogin pr.body)]) := by
        unfold create_or_update_pr ensure_base_branch_exists
        rw [hfind]
        simp [hok1, hok2, hok3, hok4]
      have hnob : ∀ q ∈ w.prs, q.headRefName ≠ get_branch_name pr u := by
        intro q hq
        rcases hN3 q hq with ⟨e, he, _, hname⟩ | ⟨_, _, hname⟩
        · have := dictFind_get_fork_prs_none _ _ hfind e he
          rw [hname] at this
          exact this
        · intro hc
          rw [hc] at hname
          exact hb_done hname
      have hw1prs : (interp env w
          [Eff.lsRemote pr.baseRefName,
           Eff.fetchHead pr.number (get_branch_name pr u) pr.headRefOid false,
           Eff.pushHead (get_branch_name pr u) false,
           Eff.createPR (get_branch_name pr u) pr.baseRefName pr.title
             (mkMirrorBody pr.number pr.authorLogin pr.body)]).prs
          = w.prs ++ [⟨w.nextNum, pr.title, get_branch_name pr u, pr.headRefOid,
              mkMirrorBody pr.number pr.authorLogin pr.body⟩] := by
        have hcalc : (interp env w
            [Eff.lsRemote pr.baseRefName,
             Eff.fetchHead pr.number (get_branch_name pr u) pr.headRefOid false,
             Eff.pushHead (get_branch_name pr u) false,
             Eff.createPR (get_branch_name pr u) pr.baseRefName pr.title
               (mkMirrorBody pr.number pr.authorLogin pr.body)]).prs
            = w.prs.map (fun p => if p.headRefName = get_branch_name pr u
                then { p with headRefOid := pr.headRefOid } else p)
              ++ [⟨w.nextNum, pr.title, get_branch_name pr u, pr.headRefOid,
                  mkMirrorBody pr.number pr.authorLogin pr.body⟩] := by
          simp [interp, interpEff, hok2, hok3, hok4]
        rw [hcalc, map_update_eq_self _ _ _ hnob]
      have hw1next : (interp env w
          [Eff.lsRemote pr.baseRefName,
           Eff.fetchHead pr.number (get_branch_name pr u) pr.headRefOid false,
           Eff.pushHead (get_branch_name pr u) false,
           Eff.createPR (get_branch_name pr u) pr.baseRefName pr.title
             (mkMirrorBody pr.number pr.authorLogin pr.body)]).nextNum
          = w.nextNum + 1 := by
        simp [interp, interpEff, hok2, hok3, hok4]
      rw [heffs, hstep]
      rw [interp_append]
      generalize hw1 : interp env w
          [Eff.lsRemote pr.baseRefName,
           Eff.fetchHead pr.number (get_branch_name pr u) pr.headRefOid false,
           Eff.pushHead (get_branch_name pr u) false,
           Eff.createPR (get_branch_name pr u) pr.baseRefName pr.title
             (mkMirrorBody pr.number pr.authorLogin pr.body)] = w1
      rw [hw1] at hw1prs hw1next
      have hnum_notmem : w.nextNum ∉ w.prs.map ForkPR.number := by
        intro hmem
        rcases List.mem_map.mp hmem with ⟨q, hq, hqn⟩
        rcases hN3 q hq with ⟨e, he, hen, _⟩ | ⟨hge, hlt, _⟩
        · have := le_maxNum f0 e he
          omega
        · omega
      have hWinv1 : WorldInv f0 (done ++ [get_branch_name pr u]) w1 := by
        refine ⟨?_, ?_, ?_, ?_⟩
        · rw [hw1prs, List.map_append]
          refine List.Nodup.append hN1 (by simp) ?_
          intro a ha hb
          simp only [List.map_cons, List.map_nil, List.mem_singleton] at hb
          subst hb
          rcases List.mem_map.mp ha with ⟨q, hq, hqs⟩
          exact hnob q hq hqs
        · rw [hw1prs, List.map_append]
          refine List.Nodup.append hN2 (by simp) ?_
          intro a ha hb
          simp only [List.map_cons, List.map_nil, List.mem_singleton] at hb
          subst hb
          exact hnum_notmem ha
        · intro fp hfp
          rw [hw1prs] at hfp
          rcases List.mem_append.mp hfp with hfp | hfp
          · rcases hN3 fp hfp with h | ⟨ha, hb, hc⟩
            · exact Or.inl h
            · exact Or.inr ⟨ha, by rw [hw1next]; omega, List.mem_append.mpr (Or.inl hc)⟩
          · simp only [List.mem_singleton] at hfp
            subst hfp
            exact Or.inr ⟨hN4, by rw [hw1next]; exact Nat.lt_succ_self w.nextNum, by simp⟩
        · rw [hw1next]; omega
      have hpend1 : ∀ p ∈ rest, ∀ fp ∈ w1.prs,
          fp.headRefName = get_branch_name p u → fp ∈ f0 := by
        intro p hp fp hfp hname
        rw [hw1prs] at hfp
        rcases List.mem_append.mp hfp with hfp | hfp
        · exact hpend p (houts p hp) fp hfp hname
        · simp only [List.mem_singleton] at hfp
          subst hfp
          exact absurd (hname ▸ List.mem_map_of_mem (fun p => get_branch_name p u) hp)
            (by simpa [hname] using hbn_rest)
      have hkeep1 : ∀ e ∈ f0, ∃ fp ∈ w1.prs, fp.headRefName = e.headRefName := by
        intro e he
        rcases hkeep e he with ⟨fp, hfp, hname⟩
        exact ⟨fp, by rw [hw1prs]; exact List.mem_append.mpr (Or.inl hfp), hname⟩
      obtain ⟨ihInv, ihWit, ihPres, ihKeep⟩ :=
        ih (done ++ [get_branch_name pr u]) w1 h1_rest hdone_rest hWinv1 hpend1 hkeep1
      have hdoneassoc : (done ++ [get_branch_name pr u])
            ++ rest.map (fun p => get_branch_name p u)
          = done ++ (pr :: rest).map (fun p => get_branch_name p u) := by
        simp
      refine ⟨hdoneassoc ▸ ihInv, ?_, ?_, ihKeep⟩
      · intro p hp
        rcases List.mem_cons.mp hp with hp | hp
        · subst hp
          refine ⟨⟨w.nextNum, p.title, get_branch_name p u, p.headRefOid,
              mkMirrorBody p.number p.authorLogin p.body⟩, ?_, rfl, rfl⟩
          apply ihPres
          · rw [hw1prs]
            exact List.mem_append.mpr (Or.inr (by simp))
          · simpa using hbn_rest
        · exact ihWit p hp
      · intro fp hfp hnot
        simp only [List.map_cons, List.mem_cons] at hnot
        push_neg at hnot
        apply ihPres
        · rw [hw1prs]
          exact List.mem_append.mpr (Or.inl hfp)
        · intro hc
          exact hnot.2 hc
    · -- a fork PR already exists under this branch name
      obtain ⟨hexmem, hexname⟩ := dictFind_get_fork_prs_some _ _ _ hfind
      by_cases hsha : existing.headRefOid = pr.headRefOid
      · -- unchanged path
        have hstep : create_or_update_pr env pr (get_branch_name pr u) (get_fork_prs f0)
            = (.unchanged, []) := by
          unfold create_or_update_pr
          rw [hfind]
          simp [hsha]
        rw [heffs, hstep]
        simp only [List.nil_append]
        have hWinv1 : WorldInv f0 (done ++ [get_branch_name pr u]) w :=
          WorldInv_mono_done f0 done _ w
            (fun x hx => List.mem_append.mpr (Or.inl hx)) ⟨hN1, hN2, hN3, hN4⟩
        have hpend1 : ∀ p ∈ rest, ∀ fp ∈ w.prs,
            fp.headRefName = get_branch_name p u → fp ∈ f0 :=
          fun p hp fp hfp hname => hpend p (houts p hp) fp hfp hname
        obtain ⟨ihInv, ihWit, ihPres, ihKeep⟩ :=
          ih (done ++ [get_branch_name pr u]) w h1_rest hdone_rest hWinv1 hpend1 hkeep
        have hdoneassoc : (done ++ [get_branch_name pr u])
              ++ rest.map (fun p => get_branch_name p u)
            = done ++ (pr :: rest).map (fun p => get_branch_name p u) := by
          simp
        refine ⟨hdoneassoc ▸ ihInv, ?_, ?_, ihKeep⟩
        · intro p hp
          rcases List.mem_cons.mp hp with hp | hp
          · subst hp
            rcases hkeep existing hexmem with ⟨fp, hfp, hname⟩
            rw [hexname] at hname
            have hfpf0 : fp ∈ f0 := hpend p (List.mem_cons.mpr (Or.inl rfl)) fp hfp hname
            have hfpeq : fp = existing :=
              List.inj_on_of_nodup_map hf0names hfpf0 hexmem (by rw [hname, hexname])
            refine ⟨fp, ihPres fp hfp (by rw [hname]; simpa using hbn_rest), hname, ?_⟩
            rw [hfpeq, hsha]
          · exact ihWit p hp
        · intro fp hfp hnot
          simp only [List.map_cons, List.mem_cons] at hnot
          push_neg at hnot
          exact ihPres fp hfp (fun hc => hnot.2 hc)
      · -- update path
        have hstep : create_or_update_pr env pr (get_branch_name pr u) (get_fork_prs f0)
            = (.updated,
               [.fetchHead pr.number (get_branch_name pr u) pr.headRefOid true,
                .pushHead (get_branch_name pr u) true]) := by
          unfold create_or_update_pr
          rw [hfind]
          simp [hsha, hok2, hok3]
        have hw1prs : (interp env w
            [Eff.fetchHead pr.number (get_branch_name pr u) pr.headRefOid true,
             Eff.pushHead (get_branch_name pr u) true]).prs
            = w.prs.map (fun p => if p.headRefName = get_branch_name pr u
                then { p with headRefOid := pr.headRefOid } else p) := by
          simp [interp, interpEff, hok2, hok3]
        have hw1next : (interp env w
            [Eff.fetchHead pr.number (get_branch_name pr u) pr.headRefOid true,
             Eff.pushHead (get_branch_name pr u) true]).nextNum = w.nextNum := by
          simp [interp, interpEff, hok2, hok3]
        rw [heffs, hstep]
        rw [interp_append]
        generalize hw1 : interp env w
            [Eff.fetchHead pr.number (get_branch_name pr u) pr.headRefOid true,
             Eff.pushHead (get_branch_name pr u) true] = w1
        rw [hw1] at hw1prs hw1next
        have hWinv1 : WorldInv f0 (done ++ [get_branch_name pr u]) w1 := by
          refine ⟨?_, ?_, ?_, ?_⟩
          · rw [hw1prs, map_name_map_update]
            exact hN1
          · rw [hw1prs, map_number_map_update]
            exact hN2
          · intro fp hfp
            rw [hw1prs] at hfp
            rcases mem_map_update_exists _ _ _ fp hfp with ⟨fp0, hfp0, hnum, hname, _⟩
            rcases hN3 fp0 hfp0 with ⟨e, he, hen, henn⟩ | ⟨ha, hb, hc⟩
            · exact Or.inl ⟨e, he, by rw [hen, hnum], by rw [henn, hname]⟩
            · exact Or.inr ⟨by omega, by rw [hw1next]; omega,
                List.mem_append.mpr (Or.inl (hname ▸ hc))⟩
          · rw [hw1next]; exact hN4
        have hpend1 : ∀ p ∈ rest, ∀ fp ∈ w1.prs,
            fp.headRefName = get_branch_name p u → fp ∈ f0 := by
          intro p hp fp hfp hname
          rw [hw1prs] at hfp
          rcases mem_map_update_exists _ _ _ fp hfp with ⟨fp0, hfp0, _, hname0, hid⟩
          have hne : get_branch_name p u ≠ get_branch_name pr u := by
            intro hc
            exact hbn_rest (hc ▸ List.mem_map_of_mem (fun p => get_branch_name p u) hp)
          have : fp0.headRefName ≠ get_branch_name pr u := by
            rw [hname0, hname]
            exact hne
          rw [hid this]
          exact hpend p (houts p hp) fp0 hfp0 (by rw [hname0, hname])
        have hkeep1 : ∀ e ∈ f0, ∃ fp ∈ w1.prs, fp.headRefName = e.headRefName := by
          intro e he
          rcases hkeep e he with ⟨fp, hfp, hname⟩
          refine ⟨(fun p => if p.headRefName = get_branch_name pr u
              then { p with headRefOid := pr.headRefOid } else p) fp, ?_, ?_⟩
          · rw [hw1prs]
            exact List.mem_map_of_mem _ hfp
          · rw [update_preserves_name]
            exact hname
        obtain ⟨ihInv, ihWit, ihPres, ihKeep⟩ :=
          ih (done ++ [get_branch_name pr u]) w1 h1_rest hdone_rest hWinv1 hpend1 hkeep1
        have hdoneassoc : (done ++ [get_branch_name pr u])
              ++ rest.map (fun p => get_branch_name p u)
            = done ++ (pr :: rest).map (fun p => get_branch_name p u) := by
          simp
        refine ⟨hdoneassoc ▸ ihInv, ?_, ?_, ihKeep⟩
        · intro p hp
          rcases List.mem_cons.mp hp with hp | hp
          · subst hp
            rcases hkeep existing hexmem with ⟨fp, hfp, hname⟩
            rw [hexname] at hname
            refine ⟨{ fp with headRefOid := p.headRefOid }, ?_, by simpa using hname, rfl⟩
            apply ihPres
            · rw [hw1prs]
              exact List.mem_map.mpr ⟨fp, hfp, if_pos hname⟩
            · show fp.headRefName ∉ _
              rw [hname]
              exact hbn_rest
          · exact ihWit p hp
        · intro fp hfp hnot
          simp only [List.map_cons, List.mem_cons] at hnot
          push_neg at hnot
          apply ihPres
          · rw [hw1prs]
            exact List.mem_map.mpr ⟨fp, hfp, if_neg hnot.1⟩
          · intro hc
            exact hnot.2 hc

theorem run1_world (env : Env) (u : List UpstreamPR) (f0 : List ForkPR)
    (hok : envAllOk env)
    (hf0names : (f0.map ForkPR.headRefName).Nodup)
    (hf0nums : (f0.map ForkPR.number).Nodup)
    (hubn : (u.map (fun p => get_branch_name p u)).Nodup) :
    (∀ p ∈ u, ∃ fp ∈ (interp env (initWorld f0) (sync_prs env u f0).effects).prs,
        fp.headRefName = get_branch_name p u ∧ fp.headRefOid = p.headRefOid) ∧
    (∀ fp ∈ (interp env (initWorld f0) (sync_prs env u f0).effects).prs,
        fp.headRefName ∈ u.map (fun p => get_branch_name p u)) ∧
    ((interp env (initWorld f0) (sync_prs env u f0).effects).prs.map ForkPR.headRefName).Nodup := by
  obtain ⟨hok1, hok2, hok3, hok4, hok5, hok6⟩ := hok
  have hperm := sortByNumber_perm u
  have hpermmap := hperm.map (fun p => get_branch_name p u)
  have hsorted_nodup : ((sortByNumber u).map (fun p => get_branch_name p u)).Nodup :=
    hpermmap.nodup_iff.mpr hubn
  have heff : (sync_prs env u f0).effects
      = (runItems env u (get_fork_prs f0) (sortByNumber u)).2
        ++ (close_or_merge_stale_prs env
            ((sortByNumber u).map (fun p => get_branch_name p u)) (get_fork_prs f0)).2 := rfl
  rw [heff, interp_append]
  obtain ⟨⟨hM1, hM2, hM3, hM4⟩, hWit, hPres, hKeep⟩ :=
    runItems_world_inv env u f0 ⟨hok1, hok2, hok3, hok4, hok5, hok6⟩ hf0names
      (sortByNumber u) [] (initWorld f0) hsorted_nodup (by simp)
      ⟨hf0names, hf0nums, fun fp hfp => Or.inl ⟨fp, hfp, rfl, rfl⟩, Nat.le_refl _⟩
      (fun p _ fp hfp _ => hfp)
      (fun e he => ⟨e, he, rfl⟩)
  have hw1prs := interp_stale_phase env hok5 hok6
    ((sortByNumber u).map (fun p => get_branch_name p u)) (get_fork_prs f0)
    (interp env (initWorld f0) (runItems env u (get_fork_prs f0) (sortByNumber u)).2)
  refine ⟨?_, ?_, ?_⟩
  · intro p hp
    have hp' : p ∈ sortByNumber u := hperm.mem_iff.mpr hp
    rcases hWit p hp' with ⟨fp, hfp, hname, hsha⟩
    refine ⟨fp, ?_, hname, hsha⟩
    rw [hw1prs]
    refine List.mem_filter.mpr ⟨hfp, ?_⟩
    simp only [decide_eq_true_eq]
    intro horph
    rcases List.mem_map.mp horph with ⟨e, hefil, henum⟩
    obtain ⟨hemem, heub⟩ := List.mem_filter.mp hefil
    have heub' : e.1 ∉ (sortByNumber u).map (fun p => get_branch_name p u) := by
      simpa using heub
    obtain ⟨he2mem, he1name⟩ := mem_get_fork_prs f0 e hemem
    rcases hM3 fp hfp with ⟨e0, he0, he0num, he0name⟩ | ⟨hge, _, _⟩
    · have he0e2 : e0 = e.2 :=
        List.inj_on_of_nodup_map hf0nums he0 he2mem (by rw [he0num, ← henum])
      apply heub'
      rw [he1name, ← he0e2, he0name, hname]
      exact List.mem_map_of_mem _ hp'
    · have := le_maxNum f0 e.2 he2mem
      omega
  · intro fp hfp
    rw [hw1prs] at hfp
    obtain ⟨hfmid, hfnum⟩ := List.mem_filter.mp hfp
    have hfnum' : fp.number ∉ orphanNums
        ((sortByNumber u).map (fun p => get_branch_name p u)) (get_fork_prs f0) := by
      simpa using hfnum
    rcases hM3 fp hfmid with ⟨e, he, henum, hename⟩ | ⟨_, _, hc⟩
    · by_cases hin : e.headRefName ∈ (sortByNumber u).map (fun p => get_branch_name p u)
      · rw [← hename]
        exact hpermmap.mem_iff.mp hin
      · exfalso
        apply hfnum'
        have hpair := get_fork_prs_of_nodup f0 hf0names
        have hentry : (e.headRefName, e) ∈ get_fork_prs f0 := by
          rw [hpair]
          exact List.mem_map.mpr ⟨e, he, rfl⟩
        exact List.mem_map.mpr
          ⟨(e.headRefName, e), List.mem_filter.mpr ⟨hentry, by simpa using hin⟩, henum⟩
    · simp only [List.nil_append] at hc
      exact hpermmap.mem_iff.mp hc
  · rw [hw1prs]
    exact hM1.sublist ((List.filter_sublist _).map ForkPR.headRefName)

theorem run2_all_unchanged (env : Env) (u : List UpstreamPR) (f1 : List ForkPR)
    (h1 : ∀ p ∈ u, ∃ fp ∈ f1,
        fp.headRefName = get_branch_name p u ∧ fp.headRefOid = p.headRefOid)
    (h2 : ∀ fp ∈ f1, fp.headRefName ∈ u.map (fun p => get_branch_name p u))
    (h3 : (f1.map ForkPR.headRefName).Nodup) :
    (∀ o ∈ (sync_prs env u f1).outcomes, o = .unchanged) ∧
    (sync_prs env u f1).staleOutcomes = [] := by
  have hperm := sortByNumber_perm u
  constructor
  · have hgen : ∀ items : List UpstreamPR, (∀ p ∈ items, p ∈ u) →
        ∀ o ∈ (runItems env u (get_fork_prs f1) items).1, o = Outcome.unchanged := by
      intro items
      induction items with
      | nil =>
        intro _ o ho
        simp [runItems] at ho
      | cons p rest ihh =>
        intro hsub o ho
        have hp : p ∈ u := hsub p (List.mem_cons.mpr (Or.inl rfl))
        rcases h1 p hp with ⟨fp, hfp, hname, hsha⟩
        have hfind : dictFind (get_fork_prs f1) (get_branch_name p u) = some fp := by
          rw [← hname]
          exact dictFind_eq_of_mem_nodup f1 h3 fp hfp
        have hstep : create_or_update_pr env p (get_branch_name p u) (get_fork_prs f1)
            = (.unchanged, []) := by
          unfold create_or_update_pr
          rw [hfind]
          simp [hsha]
        have hcons : (runItems env u (get_fork_prs f1) (p :: rest)).1
            = Outcome.unchanged :: (runItems env u (get_fork_prs f1) rest).1 := by
          simp [runItems, hstep]
        rw [hcons] at ho
        rcases List.mem_cons.mp ho with rfl | ho
        · rfl
        · exact ihh (fun q hq => hsub q (List.mem_cons.mpr (Or.inr hq))) o ho
    intro o ho
    exact hgen (sortByNumber u) (fun p hp => hperm.mem_iff.mp hp) o ho
  · have hlive : close_or_merge_stale_prs env
        ((sortByNumber u).map (fun p => get_branch_name p u)) (get_fork_prs f1)
        = ([], []) := by
      apply close_or_merge_all_live
      intro e he
      obtain ⟨hmem, hkey⟩ := mem_get_fork_prs f1 e he
      have hm := h2 e.2 hmem
      rw [hkey]
      exact (hperm.map (fun p => get_branch_name p u)).mem_iff.mpr hm
    show (close_or_merge_stale_prs env
        ((sortByNumber u).map (fun p => get_branch_name p u)) (get_fork_prs f1)).1 = []
    rw [hlive]

/-- C7: with every adapter command succeeding, duplicate-free branch names
and PR numbers on the fork snapshot, and collision-free resolved upstream
branch names, running the reconciliation a second time against the platform
state left by the first run (the world after interpreting the first run's
effect trace) produces only `unchanged` outcomes, finds no orphaned fork
item, and performs zero creates, updates, merges and closes. -/
theorem C7_second_run_idempotent (env : Env) (u : List UpstreamPR) (f0 : List ForkPR)
    (hok : envAllOk env)
    (hf0names : (f0.map ForkPR.headRefName).Nodup)
    (hf0nums : (f0.map ForkPR.number).Nodup)
    (hubn : (u.map (fun p => get_branch_name p u)).Nodup) :
    (∀ o ∈ (sync_prs env u
        (interp env (initWorld f0) (sync_prs env u f0).effects).prs).outcomes,
      o = .unchanged) ∧
    (sync_prs env u
        (interp env (initWorld f0) (sync_prs env u f0).effects).prs).staleOutcomes = [] ∧
    (sync_prs env u
        (interp env (initWorld f0) (sync_prs env u f0).effects).prs).outcomes.count
      .created = 0 ∧
    (sync_prs env u
        (interp env (initWorld f0) (sync_prs env u f0).effects).prs).outcomes.count
      .updated = 0 ∧
    (sync_prs env u
        (interp env (initWorld f0) (sync_prs env u f0).effects).prs).staleOutcomes.count
      .merged = 0 ∧
    (sync_prs env u
        (interp env (initWorld f0) (sync_prs env u f0).effects).prs).staleOutcomes.count
      .closed = 0 := by
  obtain ⟨ha1, ha2, ha3⟩ := run1_world env u f0 hok hf0names hf0nums hubn
  obtain ⟨hb1, hb2⟩ := run2_all_unchanged env u _ ha1 ha2 ha3
  refine ⟨hb1, hb2, ?_, ?_, ?_, ?_⟩
  · refine List.count_eq_zero.mpr ?_
    intro hmem
    exact absurd (hb1 _ hmem) (by simp)
  · refine List.count_eq_zero.mpr ?_
    intro hmem
    exact absurd (hb1 _ hmem) (by simp)
  · rw [hb2]
    rfl
  · rw [hb2]
    rfl

/-- Witness for C7: one upstream PR, an empty fork, and an all-succeeding
environment. -/
theorem C7_second_run_idempotent_witness :
    envAllOk ⟨fun _ => true, fun _ => true, fun _ => true, fun _ _ => true, fun _ => true,
      fun _ => true, fun _ => true, fun _ => true, fun _ => some false⟩ ∧
    (∀ o ∈ (sync_prs
        ⟨fun _ => true, fun _ => true, fun _ => true, fun _ _ => true, fun _ => true,
         fun _ => true, fun _ => true, fun _ => true, fun _ => some false⟩
        [⟨10, "T".data, "main".data, "feat".data, "sha".data, "orig".data, "alice".data⟩]
        (interp
          ⟨fun _ => true, fun _ => true, fun _ => true, fun _ _ => true, fun _ => true,
           fun _ => true, fun _ => true, fun _ => true, fun _ => some false⟩
          (initWorld [])
          (sync_prs
            ⟨fun _ => true, fun _ => true, fun _ => true, fun _ _ => true, fun _ => true,
             fun _ => true, fun _ => true, fun _ => true, fun _ => some false⟩
            [⟨10, "T".data, "main".data, "feat".data, "sha".data, "orig".data, "alice".data⟩]
            []).effects).prs).outcomes,
      o = .unchanged) :=
  ⟨⟨fun _ => rfl, fun _ _ => rfl, fun _ => rfl, fun _ => rfl, fun _ => rfl, fun _ => rfl⟩,
   (C7_second_run_idempotent
     ⟨fun _ => true, fun _ => true, fun _ => true, fun _ _ => true, fun _ => true,
      fun _ => true, fun _ => true, fun _ => true, fun _ => some false⟩
     [⟨10, "T".data, "main".data, "feat".data, "sha".data, "orig".data, "alice".data⟩]
     []
     ⟨fun _ => rfl, fun _ _ => rfl, fun _ => rfl, fun _ => rfl, fun _ => rfl, fun _ => rfl⟩
     (by decide) (by decide) (by decide)).1⟩

end SyncMirror
